import Mathlib

/-!
Verification of the path-normalization script `src/fix_csv_paths.py`.

The script reads a CSV table of alumni records, rewrites each record's
`photo_file` field with a small string transform, and writes the table
back out.  The transform (lines 13-30 of the source) is:

```
photo_path = row['photo_file']
photo_path = photo_path.strip().strip("'").strip('"')
if photo_path and '/photos/' in photo_path:
    match = re.search(r'/photos/(.+)$', photo_path)
    if match:
        row['photo_file'] = '/photos/' + match.group(1)
    else:
        row['photo_file'] = ''
elif photo_path:
    row['photo_file'] = ''
```

We embed strings as `List Char`.  Python's `str.strip(chars)` removes
every leading and trailing character belonging to `chars` (not a single
layer), which we model with `dropWhile` / `rdropWhile`.  The regex
`/photos/(.+)$` is modelled exactly: `.` matches any character except a
newline, `$` matches at the end of the string or just before a newline
that is the last character, `re.search` returns the leftmost position at
which the whole pattern matches, and `.+` is greedy.
-/

namespace FixCsvPaths

/-- The single-quote character (codepoint 39). -/
def sq : Char := Char.ofNat 39

/-- The double-quote character (codepoint 34). -/
def dq : Char := Char.ofNat 34

/-- The newline character (codepoint 10). -/
def nl : Char := Char.ofNat 10

/-- Whitespace as recognized by Python's no-argument `str.strip`,
restricted to the ASCII range actually reachable in the data: space,
tab, newline, carriage return, vertical tab (11), form feed (12). -/
def isPySpace (c : Char) : Bool :=
  c == ' ' || c == '\t' || c == nl || c == '\r' ||
    c == Char.ofNat 11 || c == Char.ofNat 12

/-- Python `str.strip(chars)`: remove every leading and every trailing
character satisfying `p`. -/
def pyStrip (p : Char → Bool) (l : List Char) : List Char :=
  List.rdropWhile p (l.dropWhile p)

/-- Predicate for the single-quote character, as used by `.strip("'")`. -/
def isSQ (c : Char) : Bool := c == sq

/-- Predicate for the double-quote character, as used by `.strip('"')`. -/
def isDQ (c : Char) : Bool := c == dq

/-- Line 17 of the source:
`photo_path.strip().strip("'").strip('"')`. -/
def trimmed (l : List Char) : List Char :=
  pyStrip isDQ (pyStrip isSQ (pyStrip isPySpace l))

/-- The literal marker string `/photos/`. -/
def photosLit : List Char := "/photos/".toList

/-- The marker without its first character, so that
`photosLit = '/' :: photosTail` holds by computation. -/
def photosTail : List Char := "photos/".toList

/-- Python's substring test `needle in hay`. -/
def containsSub (needle : List Char) : List Char → Bool
  | [] => needle.isEmpty
  | c :: cs => needle.isPrefixOf (c :: cs) || containsSub needle cs

/-- The tail of the regex `/photos/(.+)$` applied to the text `t` that
follows an occurrence of `/photos/`: `.+` greedily takes the maximal
run of non-newline characters from the start of `t`, and the match
succeeds when that run is nonempty and `$` can follow it, i.e. when it
covers all of `t` or all of `t` but a final newline.  Returns the
captured group. -/
def matchTail (t : List Char) : Option (List Char) :=
  if (t.takeWhile (fun c => !(c == nl))).isEmpty then none
  else if (t.drop (t.takeWhile (fun c => !(c == nl))).length).isEmpty
      || (t.drop (t.takeWhile (fun c => !(c == nl))).length) == [nl] then
    some (t.takeWhile (fun c => !(c == nl)))
  else none

/-- `re.search(r'/photos/(.+)$', l)`: scan left to right for the first
position where the whole pattern matches; return the captured group. -/
def reSearchPhotos : List Char → Option (List Char)
  | [] => none
  | c :: cs =>
    if photosLit.isPrefixOf (c :: cs) then
      match matchTail ((c :: cs).drop photosLit.length) with
      | some g => some g
      | none => reSearchPhotos cs
    else reSearchPhotos cs

/-- The per-record transform of the `photo_file` value, lines 13-30 of
the source.  Note the `if`/`elif` structure has no `else`: when the
trimmed value is empty the field keeps its original value `l`. -/
def normalize (l : List Char) : List Char :=
  if !(trimmed l).isEmpty && containsSub photosLit (trimmed l) then
    match reSearchPhotos (trimmed l) with
    | some g => photosLit ++ g
    | none => []
  else if !(trimmed l).isEmpty then [] else l

/-- One row of the table: the fixed column set
`first_name, middle_name, last_name, class_role, grad_year, grad_date,
photo_file` (all text). -/
structure Record where
  first_name : List Char
  middle_name : List Char
  last_name : List Char
  class_role : List Char
  grad_year : List Char
  grad_date : List Char
  photo_file : List Char
deriving DecidableEq

/-- The loop body: only `row['photo_file']` is ever assigned. -/
def fixRow (r : Record) : Record :=
  { r with photo_file := normalize r.photo_file }

/-- The whole pass over the in-memory list of rows (the rows are written
out in the order in which they were read). -/
def fixRows (rs : List Record) : List Record := rs.map fixRow

/-- The suffix of `l` that follows the first occurrence of `/photos/`
(`none` when there is no occurrence).  This is a specification-side
helper used to state claims about "the substring following the first
match". -/
def splitAfterPhotos : List Char → Option (List Char)
  | [] => none
  | c :: cs =>
    if photosLit.isPrefixOf (c :: cs) then some ((c :: cs).drop photosLit.length)
    else splitAfterPhotos cs

/-- Modelled from the spec: drop a single leading character `c`. -/
def dropLeading (c : Char) (l : List Char) : List Char :=
  match l with
  | [] => []
  | a :: as => if a == c then as else a :: as

/-- Modelled from the spec: drop a single trailing character `c`. -/
def dropTrailing (c : Char) (l : List Char) : List Char :=
  if l.getLast? = some c then l.dropLast else l

/-- Modelled from the spec (claim C3's reading of the trimming step):
remove surrounding whitespace, then exactly ONE layer of surrounding
single quotes, then exactly ONE layer of surrounding double quotes. -/
def specTrimOneLayer (l : List Char) : List Char :=
  dropTrailing dq (dropLeading dq (dropTrailing sq (dropLeading sq (pyStrip isPySpace l))))

/-- Characters that count as decoration around a path in claim C5:
whitespace and quote characters. -/
def isDecorChar (c : Char) : Bool := isPySpace c || c == sq || c == dq

/-- Concrete input `/photos/` (marker with nothing after it). -/
def exMarkerOnly : List Char := "/photos/".toList

/-- Concrete input of two spaces. -/
def exSpaces : List Char := "  ".toList

/-- Concrete input of three spaces. -/
def exSpaces3 : List Char := "   ".toList

/-- Concrete input `''` (two single quotes, nothing else). -/
def exQuotesOnly : List Char := [sq, sq]

/-- Concrete input `''x''` (x surrounded by two pairs of single quotes). -/
def exDoubleQuoted : List Char := [sq, sq, 'x', sq, sq]

/-- The path `/photos/foo/bar.jpg` used by claim C5. -/
def fooBarPath : List Char := "/photos/foo/bar.jpg".toList

/-- Concrete input: `/photos/foo/bar.jpg` followed by a double quote, a
space and a single quote (decoration only, but not removed in full by
the trimming step). -/
def exC5bad : List Char := fooBarPath ++ [dq, ' ', sq]

/-- Concrete input `  '/photos/2020/jane.png'  ` from the spec's
example. -/
def exJane : List Char :=
  "  ".toList ++ [sq] ++ "/photos/2020/jane.png".toList ++ [sq] ++ "  ".toList

/-- Concrete input `'/photos/a '` (single-quoted path with a trailing
space inside the quotes). -/
def exInnerSpace : List Char := [sq] ++ "/photos/a ".toList ++ [sq]

/-- A concrete record whose `photo_file` value is whitespace only. -/
def sampleRec : Record :=
  ⟨"A".toList, [], "B".toList, [], "1999".toList, [], exSpaces⟩

/-- Concrete input `x/photos/a.jpg`. -/
def exC1in : List Char := "x/photos/a.jpg".toList

/-- The suffix `a.jpg` of the previous input. -/
def exC1suffix : List Char := "a.jpg".toList

/-- Concrete input `photos/jane.png` (missing leading slash, the spec's
own example of an unrecognized value). -/
def exNoSlash : List Char := "photos/jane.png".toList

/-- The suffix `foo/bar.jpg` of `fooBarPath`. -/
def fooBarSuffix : List Char := "foo/bar.jpg".toList

/-- The path `/photos/2020/jane.png` from the spec's example. -/
def janePath : List Char := "/photos/2020/jane.png".toList

/-- Concrete input `abc` (no marker at all). -/
def exAbc : List Char := "abc".toList

/-- Concrete input `x/photos/` (the marker occurs, at the very end). -/
def exTrailMarker : List Char := "x/photos/".toList

/-! ### Helper lemmas about the embedded operations -/

/-- A list with a suffix after the first `/photos/` occurrence is nonempty. -/
theorem splitAfter_ne_nil {l u : List Char} (h : splitAfterPhotos l = some u) :
    l ≠ [] := by
  intro he
  rw [he] at h
  simp [splitAfterPhotos] at h

/-- If the first-occurrence split succeeds, the substring test succeeds. -/
theorem splitAfter_contains {l : List Char} :
    ∀ {u : List Char}, splitAfterPhotos l = some u →
      containsSub photosLit l = true := by
  induction l with
  | nil => intro u h; simp [splitAfterPhotos] at h
  | cons c cs ih =>
    intro u h
    cases hp : photosLit.isPrefixOf (c :: cs) with
    | true => simp [containsSub, hp]
    | false =>
      simp only [splitAfterPhotos, hp] at h
      simp only [containsSub, hp, Bool.false_or]
      exact ih h

/-- If the substring test succeeds, the first-occurrence split succeeds. -/
theorem contains_splitAfter {l : List Char} :
    containsSub photosLit l = true → ∃ u, splitAfterPhotos l = some u := by
  induction l with
  | nil => intro h; simp [containsSub, photosLit] at h
  | cons c cs ih =>
    intro h
    cases hp : photosLit.isPrefixOf (c :: cs) with
    | true => exact ⟨(c :: cs).drop photosLit.length, by simp [splitAfterPhotos, hp]⟩
    | false =>
      simp only [containsSub, hp, Bool.false_or] at h
      obtain ⟨u, hu⟩ := ih h
      exact ⟨u, by simp [splitAfterPhotos, hp, hu]⟩

/-- The first-occurrence split really decomposes the list. -/
theorem splitAfter_decomp {l : List Char} :
    ∀ {u : List Char}, splitAfterPhotos l = some u →
      ∃ a, l = a ++ photosLit ++ u := by
  induction l with
  | nil => intro u h; simp [splitAfterPhotos] at h
  | cons c cs ih =>
    intro u h
    cases hp : photosLit.isPrefixOf (c :: cs) with
    | true =>
      obtain ⟨t, ht⟩ := List.isPrefixOf_iff_prefix.mp hp
      simp only [splitAfterPhotos, hp, if_true, Option.some.injEq] at h
      refine ⟨[], ?_⟩
      rw [List.nil_append, ← h, ← ht, List.drop_left]
    | false =>
      simp only [splitAfterPhotos, hp] at h
      obtain ⟨a, ha⟩ := ih h
      exact ⟨c :: a, by simp [ha]⟩

/-- The regex tail `(.+)$` matches a nonempty newline-free text whole. -/
theorem matchTail_of_no_nl {u : List Char} (hne : u ≠ []) (hnl : nl ∉ u) :
    matchTail u = some u := by
  have hq : u.takeWhile (fun c => !(c == nl)) = u := by
    rw [List.takeWhile_eq_self_iff]
    intro x hx
    have hxnl : x ≠ nl := fun e => hnl (e ▸ hx)
    simp [hxnl]
  simp [matchTail, hq, List.drop_length, List.isEmpty_eq_false.mpr hne]

/-- A successful regex-tail match yields a nonempty newline-free group. -/
theorem matchTail_some {t g : List Char} (h : matchTail t = some g) :
    g ≠ [] ∧ nl ∉ g := by
  unfold matchTail at h
  split at h
  · exact absurd h (by simp)
  · split at h
    · next hq _ =>
      simp only [Option.some.injEq] at h
      subst h
      refine ⟨List.isEmpty_eq_false.mp (by simpa using hq), ?_⟩
      intro hm
      have := List.mem_takeWhile_imp hm
      simp at this
    · exact absurd h (by simp)

/-- A successful search yields a nonempty newline-free group. -/
theorem reSearch_some {l : List Char} :
    ∀ {g : List Char}, reSearchPhotos l = some g → g ≠ [] ∧ nl ∉ g := by
  induction l with
  | nil => intro g h; simp [reSearchPhotos] at h
  | cons c cs ih =>
    intro g h
    cases hp : photosLit.isPrefixOf (c :: cs) with
    | true =>
      simp only [reSearchPhotos, hp, if_true] at h
      cases hm : matchTail ((c :: cs).drop photosLit.length) with
      | some g0 =>
        rw [hm] at h
        simp only [Option.some.injEq] at h
        subst h
        exact matchTail_some hm
      | none =>
        rw [hm] at h
        exact ih h
    | false =>
      simp only [reSearchPhotos, hp] at h
      exact ih h

/-- When the suffix after the first occurrence is nonempty and
newline-free, the regex search finds exactly that suffix. -/
theorem reSearch_of_splitAfter {l : List Char} :
    ∀ {u : List Char}, splitAfterPhotos l = some u → u ≠ [] → nl ∉ u →
      reSearchPhotos l = some u := by
  induction l with
  | nil => intro u h; simp [splitAfterPhotos] at h
  | cons c cs ih =>
    intro u h hne hnl
    cases hp : photosLit.isPrefixOf (c :: cs) with
    | true =>
      simp only [splitAfterPhotos, hp, if_true, Option.some.injEq] at h
      simp only [reSearchPhotos, hp, if_true, h, matchTail_of_no_nl hne hnl]
    | false =>
      simp only [splitAfterPhotos, hp] at h
      simp only [reSearchPhotos, hp]
      exact ih h hne hnl

/-- When the first occurrence of the marker is at the very end of the
string, the regex search fails everywhere. -/
theorem reSearch_none_of_splitAfter_nil {l : List Char} :
    splitAfterPhotos l = some [] → reSearchPhotos l = none := by
  induction l with
  | nil => intro h; simp [reSearchPhotos]
  | cons c cs ih =>
    intro h
    cases hp : photosLit.isPrefixOf (c :: cs) with
    | true =>
      obtain ⟨t, ht⟩ := List.isPrefixOf_iff_prefix.mp hp
      simp only [splitAfterPhotos, hp, if_true, Option.some.injEq] at h
      have htnil : t = [] := by rw [← h, ← ht, List.drop_left]
      have hl : c :: cs = photosLit := by rw [← ht, htnil, List.append_nil]
      rw [hl]
      decide
    | false =>
      simp only [splitAfterPhotos, hp] at h
      simp only [reSearchPhotos, hp]
      exact ih h

/-- Evaluation of `normalize` when the trimmed value is empty: the
`if`/`elif` pair is skipped and the field keeps its original value. -/
theorem normalize_empty {s : List Char} (h : trimmed s = []) :
    normalize s = s := by
  simp [normalize, h]

/-- Evaluation of `normalize` in the branch where the regex matches. -/
theorem normalize_pos {s g : List Char} (hne : trimmed s ≠ [])
    (hc : containsSub photosLit (trimmed s) = true)
    (hR : reSearchPhotos (trimmed s) = some g) :
    normalize s = photosLit ++ g := by
  simp [normalize, hc, hR, List.isEmpty_eq_false.mpr hne]

/-- Evaluation of `normalize` in the branch where the substring test
succeeds but the regex fails. -/
theorem normalize_nomatch {s : List Char} (hne : trimmed s ≠ [])
    (hc : containsSub photosLit (trimmed s) = true)
    (hR : reSearchPhotos (trimmed s) = none) :
    normalize s = [] := by
  simp [normalize, hc, hR, List.isEmpty_eq_false.mpr hne]

/-- Evaluation of `normalize` in the `elif` branch. -/
theorem normalize_nocontain {s : List Char} (hne : trimmed s ≠ [])
    (hc : containsSub photosLit (trimmed s) = false) :
    normalize s = [] := by
  simp [normalize, hc, List.isEmpty_eq_false.mpr hne]

/-- Case analysis on the result of `normalize`: either the trimmed value
is empty and the input is kept, or the result is empty, or the result is
`/photos/` followed by the group found by the regex search. -/
theorem normalize_cases (s : List Char) :
    (trimmed s = [] ∧ normalize s = s) ∨ normalize s = [] ∨
      ∃ g, reSearchPhotos (trimmed s) = some g ∧ normalize s = photosLit ++ g := by
  rcases eq_or_ne (trimmed s) [] with h | h
  · exact Or.inl ⟨h, normalize_empty h⟩
  · cases hc : containsSub photosLit (trimmed s) with
    | false => exact Or.inr (Or.inl (normalize_nocontain h hc))
    | true =>
      cases hR : reSearchPhotos (trimmed s) with
      | none => exact Or.inr (Or.inl (normalize_nomatch h hc hR))
      | some g => exact Or.inr (Or.inr ⟨g, rfl, normalize_pos h hc hR⟩)

/-- If the marker starts a nonempty list, the substring test succeeds. -/
theorem contains_of_isPrefixOf {c : Char} {cs : List Char}
    (hp : photosLit.isPrefixOf (c :: cs) = true) :
    containsSub photosLit (c :: cs) = true := by
  simp only [containsSub, hp, Bool.true_or]

/-- If the pattern matches right at the start, the search succeeds with
the group captured there. -/
theorem reSearch_eq_of_prefix {c : Char} {cs g : List Char}
    (hp : photosLit.isPrefixOf (c :: cs) = true)
    (hm : matchTail ((c :: cs).drop photosLit.length) = some g) :
    reSearchPhotos (c :: cs) = some g := by
  simp only [reSearchPhotos, hp, if_true, hm]

/-- The marker is a substring of any string it prefixes. -/
theorem contains_photosLit_append (g : List Char) :
    containsSub photosLit (photosLit ++ g) = true := by
  show containsSub photosLit ('/' :: (photosTail ++ g)) = true
  exact contains_of_isPrefixOf (List.isPrefixOf_iff_prefix.mpr ⟨g, rfl⟩)

/-- Searching in `/photos/` followed by a nonempty newline-free tail
matches at position zero and captures the tail. -/
theorem reSearch_photosLit_append {g : List Char} (hg : g ≠ []) (hnl : nl ∉ g) :
    reSearchPhotos (photosLit ++ g) = some g := by
  show reSearchPhotos ('/' :: (photosTail ++ g)) = some g
  have hd : List.drop photosLit.length ('/' :: (photosTail ++ g)) = g :=
    List.drop_left photosLit g
  exact reSearch_eq_of_prefix (List.isPrefixOf_iff_prefix.mpr ⟨g, rfl⟩)
    (by rw [hd]; exact matchTail_of_no_nl hg hnl)

/-- The head of `dropWhile p` does not satisfy `p`. -/
theorem head_dropWhile_false (p : Char → Bool) :
    ∀ (l : List Char) (c : Char), (l.dropWhile p).head? = some c → p c = false := by
  intro l
  induction l with
  | nil => simp
  | cons a as ih =>
    intro c h
    cases hpa : p a with
    | true =>
      rw [List.dropWhile_cons] at h
      rw [hpa] at h
      simp only [if_true] at h
      exact ih c h
    | false =>
      rw [List.dropWhile_cons] at h
      rw [hpa] at h
      simp only [Bool.false_eq_true, if_false, List.head?_cons, Option.some.injEq] at h
      rw [← h]
      exact hpa

/-- The head of `rdropWhile p l`, when present, is the head of `l`. -/
theorem head_rdropWhile_eq (p : Char → Bool) (l : List Char) (c : Char)
    (h : (List.rdropWhile p l).head? = some c) : l.head? = some c := by
  obtain ⟨t, ht⟩ := List.rdropWhile_prefix p l
  cases hm : List.rdropWhile p l with
  | nil => rw [hm] at h; simp at h
  | cons a as =>
    rw [hm] at h
    simp only [List.head?_cons, Option.some.injEq] at h
    rw [hm] at ht
    rw [← ht, List.cons_append, List.head?_cons, h]

/-- The last element of `rdropWhile p` does not satisfy `p`. -/
theorem getLast_rdropWhile_false (p : Char → Bool) (l : List Char) (c : Char)
    (h : (List.rdropWhile p l).getLast? = some c) : p c = false := by
  rw [List.rdropWhile, List.getLast?_reverse] at h
  exact head_dropWhile_false p _ c h

/-- The first character surviving a `pyStrip p` does not satisfy `p`. -/
theorem pyStrip_head_false (p : Char → Bool) (l : List Char) (c : Char)
    (h : (pyStrip p l).head? = some c) : p c = false :=
  head_dropWhile_false p l c (head_rdropWhile_eq p _ c h)

/-- The last character surviving a `pyStrip p` does not satisfy `p`. -/
theorem pyStrip_last_false (p : Char → Bool) (l : List Char) (c : Char)
    (h : (pyStrip p l).getLast? = some c) : p c = false :=
  getLast_rdropWhile_false p _ c h

/-! ### The claims -/

/-- Claim C1, counterexample: on the input `/photos/` the trimmed value
contains the marker and nothing follows the first match, so the claim
predicts the result `/photos/`; the code's regex `(.+)` needs at least
one character, the search fails, and the result is the empty string. -/
theorem claim1_cex : normalize exMarkerOnly = [] ∧ normalize exMarkerOnly ≠ exMarkerOnly := by
  decide

/-- Claim C1, amended: for every input whose trimmed form has a nonempty,
newline-free substring after the first occurrence of `/photos/`, the
result is `/photos/` concatenated with that substring. -/
theorem claim1_thm (s u : List Char)
    (h : splitAfterPhotos (trimmed s) = some u) (hne : u ≠ []) (hnl : nl ∉ u) :
    normalize s = photosLit ++ u :=
  normalize_pos (splitAfter_ne_nil h) (splitAfter_contains h)
    (reSearch_of_splitAfter h hne hnl)

/-- Claim C1, witness: the amended theorem applied to `x/photos/a.jpg`. -/
theorem claim1_witness :
    splitAfterPhotos (trimmed exC1in) = some exC1suffix ∧
      normalize exC1in = photosLit ++ exC1suffix :=
  ⟨by decide, claim1_thm _ _ (by decide) (by decide) (by decide)⟩

/-- Claim C2, counterexample: a record whose `photo_file` is two spaces
has an empty trimmed form, yet the loop body leaves the field equal to
the original two spaces, not the empty string (the `if`/`elif` has no
`else`). -/
theorem claim2_cex :
    (fixRow sampleRec).photo_file = exSpaces ∧ exSpaces ≠ ([] : List Char) := by
  decide

/-- Claim C2, amended: a value whose trimmed form is empty is left
unchanged in the record (in particular the empty input stays empty, but
whitespace-only and quote-only values are kept verbatim). -/
theorem claim2_thm (s : List Char) (h : trimmed s = []) : normalize s = s :=
  normalize_empty h

/-- Claim C2, witness: the amended theorem applied to `''`. -/
theorem claim2_witness :
    trimmed exQuotesOnly = [] ∧ normalize exQuotesOnly = exQuotesOnly :=
  ⟨by decide, claim2_thm _ (by decide)⟩

/-- Claim C3, counterexample: on `''x''` the code's trimming yields `x`
(every surrounding quote is removed), while the claimed one-layer
trimming would keep the inner pair and yield `'x'`. -/
theorem claim3_cex :
    trimmed exDoubleQuoted = ['x'] ∧ specTrimOneLayer exDoubleQuoted = [sq, 'x', sq] ∧
      trimmed exDoubleQuoted ≠ specTrimOneLayer exDoubleQuoted := by
  decide

/-- Claim C3, amended: the trimming removes surrounding whitespace, then
ALL surrounding single-quote characters, then ALL surrounding
double-quote characters, in that order: after the single-quote step the
value neither starts nor ends with a single quote, and after the
double-quote step it neither starts nor ends with a double quote. -/
theorem claim3_thm (s : List Char) :
    (pyStrip isSQ (pyStrip isPySpace s)).head? ≠ some sq ∧
      (pyStrip isSQ (pyStrip isPySpace s)).getLast? ≠ some sq ∧
      (trimmed s).head? ≠ some dq ∧ (trimmed s).getLast? ≠ some dq := by
  refine ⟨fun h => ?_, fun h => ?_, fun h => ?_, fun h => ?_⟩
  · have hq := pyStrip_head_false isSQ _ _ h
    simp [isSQ] at hq
  · have hq := pyStrip_last_false isSQ _ _ h
    simp [isSQ] at hq
  · unfold trimmed at h
    have hq := pyStrip_head_false isDQ _ _ h
    simp [isDQ] at hq
  · unfold trimmed at h
    have hq := pyStrip_last_false isDQ _ _ h
    simp [isDQ] at hq

/-- Claim C3, witness: the amended theorem instantiated at the spec's
example input. -/
theorem claim3_witness :
    (pyStrip isSQ (pyStrip isPySpace exJane)).head? ≠ some sq ∧
      (pyStrip isSQ (pyStrip isPySpace exJane)).getLast? ≠ some sq ∧
      (trimmed exJane).head? ≠ some dq ∧ (trimmed exJane).getLast? ≠ some dq :=
  claim3_thm exJane

/-- Claim C4, confirmed: a nonempty trimmed value without the marker is
cleared to the empty string by the `elif` branch. -/
theorem claim4_thm (s : List Char) (h1 : trimmed s ≠ [])
    (h2 : containsSub photosLit (trimmed s) = false) : normalize s = [] :=
  normalize_nocontain h1 h2

/-- Claim C4, witness: the theorem applied to `photos/jane.png`. -/
theorem claim4_witness :
    trimmed exNoSlash ≠ [] ∧ containsSub photosLit (trimmed exNoSlash) = false ∧
      normalize exNoSlash = [] :=
  ⟨by decide, by decide, claim4_thm _ (by decide) (by decide)⟩

/-- Claim C5, counterexample: the input `/photos/foo/bar.jpg` followed
by a double quote, a space and a single quote is the path surrounded by
whitespace/quote characters only, yet the output keeps a double quote
and a space after the path (the trimming removes the quote characters in
a fixed order, so this decoration is not removed in full). -/
theorem claim5_cex :
    exC5bad = fooBarPath ++ [dq, ' ', sq] ∧
      (∀ c ∈ ([dq, ' ', sq] : List Char), isDecorChar c = true) ∧
      normalize exC5bad = fooBarPath ++ [dq, ' '] ∧
      normalize exC5bad ≠ fooBarPath := by
  decide

/-- Claim C5, amended: when the surrounding whitespace/quote decoration
is removed in full by the trimming step, the output is exactly
`/photos/foo/bar.jpg`; the spec's concrete example
`  '/photos/2020/jane.png'  ` yields exactly `/photos/2020/jane.png`. -/
theorem claim5_thm :
    (∀ a b : List Char, (∀ c ∈ a, isDecorChar c = true) →
      (∀ c ∈ b, isDecorChar c = true) →
      trimmed (a ++ fooBarPath ++ b) = fooBarPath →
      normalize (a ++ fooBarPath ++ b) = fooBarPath) ∧
      normalize exJane = janePath := by
  constructor
  · intro a b _ _ h
    have h1 : trimmed (a ++ fooBarPath ++ b) ≠ [] := by rw [h]; decide
    have hc : containsSub photosLit (trimmed (a ++ fooBarPath ++ b)) = true := by
      rw [h]; decide
    have hR : reSearchPhotos (trimmed (a ++ fooBarPath ++ b)) = some fooBarSuffix := by
      rw [h]; decide
    rw [normalize_pos h1 hc hR]
    decide
  · decide

/-- Claim C5, witness: the amended theorem applied to the path wrapped
in a space-quote layer on each side. -/
theorem claim5_witness :
    normalize (([' ', sq] : List Char) ++ fooBarPath ++ [sq, ' ']) = fooBarPath :=
  claim5_thm.1 _ _ (by decide) (by decide) (by decide)

/-- Claim C6, counterexample: on `'/photos/a '` one application yields
`/photos/a ` (the space sits inside the quotes, so it survives), and a
second application trims that trailing space away, yielding
`/photos/a`: the normalizer is not idempotent. -/
theorem claim6_cex :
    normalize exInnerSpace = photosLit ++ ['a', ' '] ∧
      normalize (normalize exInnerSpace) = photosLit ++ ['a'] ∧
      normalize (normalize exInnerSpace) ≠ normalize exInnerSpace := by
  decide

/-- Claim C6, amended: the normalizer is idempotent on every input whose
trimmed form is empty, whose result is empty, or whose result is left
unchanged by the trimming step (the failing inputs are exactly those
whose extracted path ends in whitespace or quote characters). -/
theorem claim6_thm (s : List Char)
    (h : trimmed s = [] ∨ normalize s = [] ∨ trimmed (normalize s) = normalize s) :
    normalize (normalize s) = normalize s := by
  rcases h with h1 | h2 | h3
  · rw [normalize_empty h1]
    exact normalize_empty h1
  · rw [h2]
    exact normalize_empty (by decide)
  · rcases normalize_cases s with ⟨_, hs⟩ | hn | ⟨g, hR, hEq⟩
    · rw [hs]
      exact hs
    · rw [hn]
      exact normalize_empty (by decide)
    · rw [hEq] at h3 ⊢
      obtain ⟨hg, hnl⟩ := reSearch_some hR
      have h1' : trimmed (photosLit ++ g) ≠ [] := by
        rw [h3]
        simp [photosLit]
      have hc : containsSub photosLit (trimmed (photosLit ++ g)) = true := by
        rw [h3]
        exact contains_photosLit_append g
      have hR' : reSearchPhotos (trimmed (photosLit ++ g)) = some g := by
        rw [h3]
        exact reSearch_photosLit_append hg hnl
      exact normalize_pos h1' hc hR'

/-- Claim C6, witness: the amended theorem applied to `x/photos/a.jpg`,
whose result `/photos/a.jpg` is stable under trimming. -/
theorem claim6_witness :
    (trimmed exC1in = [] ∨ normalize exC1in = [] ∨
      trimmed (normalize exC1in) = normalize exC1in) ∧
      normalize (normalize exC1in) = normalize exC1in :=
  ⟨Or.inr (Or.inr (by decide)), claim6_thm _ (Or.inr (Or.inr (by decide)))⟩

/-- Claim C7, confirmed: the pass maps the row list pointwise, so the
output has the same number of records in the same order, each record has
the same fixed field set (the `Record` structure), and every field other
than `photo_file` is unchanged, while `photo_file` becomes its
normalized value. -/
theorem claim7_thm (rs : List Record) :
    (fixRows rs).length = rs.length ∧
      List.Forall₂ (fun r r' =>
        r'.first_name = r.first_name ∧ r'.middle_name = r.middle_name ∧
        r'.last_name = r.last_name ∧ r'.class_role = r.class_role ∧
        r'.grad_year = r.grad_year ∧ r'.grad_date = r.grad_date ∧
        r'.photo_file = normalize r.photo_file) rs (fixRows rs) := by
  constructor
  · simp [fixRows]
  · rw [fixRows, List.forall₂_map_right_iff, List.forall₂_same]
    intro r _
    exact ⟨rfl, rfl, rfl, rfl, rfl, rfl, rfl⟩

/-- Claim C8, counterexample: the whitespace-only input `   ` does not
normalize to a `/photos/...` path, so the claim calls it malformed and
predicts the empty string; the code leaves it unchanged and nonempty. -/
theorem claim8_cex :
    normalize exSpaces3 = exSpaces3 ∧ exSpaces3 ≠ ([] : List Char) ∧
      photosLit.isPrefixOf (normalize exSpaces3) = false := by
  decide

/-- Claim C8, amended: the normalization step is a total function (the
embedding is a plain function, so no error is possible), and every input
either keeps its original value (exactly when its trimmed form is
empty), or degrades to the empty string, or yields a `/photos/`-prefixed
path. -/
theorem claim8_thm (s : List Char) :
    (trimmed s = [] ∧ normalize s = s) ∨ normalize s = [] ∨
      photosLit <+: normalize s := by
  rcases normalize_cases s with h | h | ⟨g, _, hEq⟩
  · exact Or.inl h
  · exact Or.inr (Or.inl h)
  · refine Or.inr (Or.inr ?_)
    rw [hEq]
    exact List.prefix_append photosLit g

/-- Claim C9, confirmed: when the trimmed value contains the marker but
no character follows any occurrence (equivalently, the suffix after the
first occurrence is empty), the regex `(.+)` fails everywhere and the
result is the empty string, not `/photos/`. -/
theorem claim9_thm (s : List Char)
    (hc : containsSub photosLit (trimmed s) = true)
    (h : splitAfterPhotos (trimmed s) = some []) :
    normalize s = [] :=
  normalize_nomatch (splitAfter_ne_nil h) hc (reSearch_none_of_splitAfter_nil h)

/-- Claim C9, witness: the theorem applied to `x/photos/`. -/
theorem claim9_witness :
    containsSub photosLit (trimmed exTrailMarker) = true ∧
      splitAfterPhotos (trimmed exTrailMarker) = some [] ∧
      normalize exTrailMarker = [] :=
  ⟨by decide, by decide, claim9_thm _ (by decide) (by decide)⟩

/-- Claim C10, confirmed: for every input with a nonempty trimmed form,
the result is either empty or starts with `/photos/`. -/
theorem claim10_thm (s : List Char) (h : trimmed s ≠ []) :
    normalize s = [] ∨ photosLit <+: normalize s := by
  rcases normalize_cases s with ⟨he, _⟩ | hn | ⟨g, _, hEq⟩
  · exact absurd he h
  · exact Or.inl hn
  · refine Or.inr ?_
    rw [hEq]
    exact List.prefix_append photosLit g

/-- Claim C10, witness: the theorem applied to `abc`. -/
theorem claim10_witness :
    trimmed exAbc ≠ [] ∧ (normalize exAbc = [] ∨ photosLit <+: normalize exAbc) :=
  ⟨by decide, claim10_thm _ (by decide)⟩

end FixCsvPaths
